import Mathlib

/-!
Verification of the stacked-branch workflow engine (git-spice core commands).

This file gives a shallow embedding of the two command implementations under
verification, `upstackRestackCmd.Run` (upstack_restack.go) and
`downstackEditCmd.Run` (downstack_edit.go), together with a spec-modelled
stack-service operation (`ListDownstack`, whose implementation lives outside
the provided sources).

External collaborators (the git adapter, the store, the editor subprocess)
are abstracted: the restack primitive is a parameter returning its per-branch
outcome, the editor is a parameter giving its exit status and the content of
the edited document, and side effects (store updates, checkouts, log
messages, temp-file lifecycle) are recorded explicitly in result structures.
-/

namespace GitSpice

namespace UpstackRestack

/-- Outcome of `svc.Restack(ctx, branch)` as observed by the loop in
`upstackRestackCmd.Run`: success carries the new base (used in the
"restacked on" log message); `ErrAlreadyRestacked` is the sentinel matched
by `errors.Is`; any other error (a rebase conflict or otherwise) falls into
the `default` case of the switch. -/
inductive RestackRes where
  | ok (base : String)
  | alreadyRestacked
  | conflict
  | otherError
deriving DecidableEq, Repr

/-- `true` on the outcomes that take the `default:` branch of the switch in
`upstackRestackCmd.Run` (anything that is not success and not
`ErrAlreadyRestacked`). -/
def RestackRes.isErr : RestackRes → Bool
  | .conflict => true
  | .otherError => true
  | _ => false

/-- `true` exactly on the success outcome. -/
def RestackRes.isOk : RestackRes → Bool
  | .ok _ => true
  | _ => false

/-- Log messages emitted by the loop of `upstackRestackCmd.Run`. -/
inductive LogMsg where
  | noRestackNeeded (branch : String)
  | restacked (branch : String) (base : String)
deriving DecidableEq, Repr

/-- Observable per-iteration state of the loop in `upstackRestackCmd.Run`:
which branches `svc.Restack` was invoked on (in order), which branches had
their store record committed by a successful restack, and the log messages
emitted. -/
structure RunAcc where
  invoked : List String
  restackedBranches : List String
  logs : List LogMsg
deriving DecidableEq, Repr

/-- The `loop:` over `upstacks` in `upstackRestackCmd.Run` (lines 40-63 of
upstack_restack.go). Trunk is skipped before calling `Restack`; on
`ErrAlreadyRestacked` the loop continues, logging only when the branch is
not the current branch; on any other error the function returns early
(second component `false`). -/
def runLoop (restack : String → RestackRes) (trunk currentBranch : String) :
    List String → RunAcc → RunAcc × Bool
  | [], acc => (acc, true)
  | b :: rest, acc =>
    if b = trunk then
      runLoop restack trunk currentBranch rest acc
    else
      match restack b with
      | .ok base =>
        runLoop restack trunk currentBranch rest
          ⟨acc.invoked ++ [b], acc.restackedBranches ++ [b],
           acc.logs ++ [.restacked b base]⟩
      | .alreadyRestacked =>
        runLoop restack trunk currentBranch rest
          ⟨acc.invoked ++ [b], acc.restackedBranches,
           if b = currentBranch then acc.logs
           else acc.logs ++ [.noRestackNeeded b]⟩
      | .conflict => (⟨acc.invoked ++ [b], acc.restackedBranches, acc.logs⟩, false)
      | .otherError => (⟨acc.invoked ++ [b], acc.restackedBranches, acc.logs⟩, false)

/-- Full observable result of `upstackRestackCmd.Run` after the initial
queries (current branch, upstack listing) succeeded. -/
structure RunResult where
  invoked : List String
  restackedBranches : List String
  logs : List LogMsg
  success : Bool
  finalCheckout : Option String
deriving DecidableEq, Repr

/-- `upstackRestackCmd.Run`, from the point where `upstacks` has been
listed: run the loop; only on success check out the original current
branch (`repo.Checkout(ctx, currentBranch)`); on an error inside the loop
return early without any checkout. -/
def upstackRestackRun (restack : String → RestackRes) (trunk currentBranch : String)
    (upstacks : List String) : RunResult :=
  let p := runLoop restack trunk currentBranch upstacks ⟨[], [], []⟩
  { invoked := p.1.invoked
    restackedBranches := p.1.restackedBranches
    logs := p.1.logs
    success := p.2
    finalCheckout := if p.2 then some currentBranch else none }

/-- The log message produced for one non-trunk branch, as a function of its
restack outcome: a "restacked on" message on success, the
"does not need to be restacked" message on `ErrAlreadyRestacked` unless the
branch is the current branch, and none otherwise. -/
def expectedLog (restack : String → RestackRes) (currentBranch : String)
    (b : String) : Option LogMsg :=
  match restack b with
  | .ok base => some (.restacked b base)
  | .alreadyRestacked =>
    if b = currentBranch then none else some (.noRestackNeeded b)
  | _ => none

theorem runLoop_no_err (restack : String → RestackRes) (trunk currentBranch : String)
    (l : List String) (acc : RunAcc)
    (h : ∀ b ∈ l, b ≠ trunk → (restack b).isErr = false) :
    runLoop restack trunk currentBranch l acc =
      (⟨acc.invoked ++ l.filter (fun b => b ≠ trunk),
        acc.restackedBranches ++
          ((l.filter (fun b => b ≠ trunk)).filter (fun b => (restack b).isOk)),
        acc.logs ++ (l.filter (fun b => b ≠ trunk)).filterMap
          (expectedLog restack currentBranch)⟩, true) := by
  induction l generalizing acc with
  | nil => simp [runLoop]
  | cons b rest ih =>
    by_cases hb : b = trunk
    · subst hb
      rw [runLoop]
      simp only [if_pos rfl]
      rw [ih acc (fun x hx hxt => h x (List.mem_cons_of_mem _ hx) hxt)]
      simp
    · rw [runLoop]
      simp only [if_neg hb]
      have hrest : ∀ x ∈ rest, x ≠ trunk → (restack x).isErr = false :=
        fun x hx hxt => h x (List.mem_cons_of_mem _ hx) hxt
      have hbok : (restack b).isErr = false := h b (List.mem_cons_self _ _) hb
      rcases hres : restack b with base | _ | _ | _
      · simp only []
        rw [ih _ hrest]
        simp [hb, hres, expectedLog, RestackRes.isOk]
      · simp only []
        rw [ih _ hrest]
        by_cases hcur : b = currentBranch
        · subst hcur
          simp [hb, hres, expectedLog, RestackRes.isOk]
        · simp [hb, hcur, hres, expectedLog, RestackRes.isOk]
      · simp [RestackRes.isErr, hres] at hbok
      · simp [RestackRes.isErr, hres] at hbok

theorem runLoop_err (restack : String → RestackRes) (trunk currentBranch : String)
    (pre : List String) (bad : String) (post : List String) (acc : RunAcc)
    (hpre : ∀ b ∈ pre, b ≠ trunk → (restack b).isErr = false)
    (hbad1 : bad ≠ trunk) (hbad2 : (restack bad).isErr = true) :
    runLoop restack trunk currentBranch (pre ++ bad :: post) acc =
      (⟨acc.invoked ++ pre.filter (fun b => b ≠ trunk) ++ [bad],
        acc.restackedBranches ++
          ((pre.filter (fun b => b ≠ trunk)).filter (fun b => (restack b).isOk)),
        acc.logs ++ (pre.filter (fun b => b ≠ trunk)).filterMap
          (expectedLog restack currentBranch)⟩, false) := by
  induction pre generalizing acc with
  | nil =>
    rw [List.nil_append, runLoop]
    simp only [if_neg hbad1]
    rcases hres : restack bad with base | _ | _ | _
    · simp [RestackRes.isErr, hres] at hbad2
    · simp [RestackRes.isErr, hres] at hbad2
    · simp only []
      simp
    · simp only []
      simp
  | cons b rest ih =>
    rw [List.cons_append, runLoop]
    by_cases hb : b = trunk
    · subst hb
      simp only [if_pos rfl]
      rw [ih acc (fun x hx hxt => hpre x (List.mem_cons_of_mem _ hx) hxt)]
      simp
    · simp only [if_neg hb]
      have hrest : ∀ x ∈ rest, x ≠ trunk → (restack x).isErr = false :=
        fun x hx hxt => hpre x (List.mem_cons_of_mem _ hx) hxt
      have hbok : (restack b).isErr = false := hpre b (List.mem_cons_self _ _) hb
      rcases hres : restack b with base | _ | _ | _
      · simp only []
        rw [ih _ hrest]
        simp [hb, hres, expectedLog, RestackRes.isOk]
      · simp only []
        rw [ih _ hrest]
        by_cases hcur : b = currentBranch
        · subst hcur
          simp [hb, hres, expectedLog, RestackRes.isOk]
        · simp [hb, hcur, hres, expectedLog, RestackRes.isOk]
      · simp [RestackRes.isErr, hres] at hbok
      · simp [RestackRes.isErr, hres] at hbok

/-- C1: `restack_upstack` iterates the branches returned by `list_upstack` of
the current branch in order, skipping exactly the branches equal to the
trunk; on an `AlreadyRestacked` result it continues with the next branch,
and the "does not need to be restacked" log message is emitted precisely for
the `AlreadyRestacked` branches that differ from the originating (current)
branch. Formally: on a run where no branch fails, `svc.Restack` is invoked
on exactly the non-trunk elements of `upstacks` in order, and the log
stream is the per-branch `expectedLog` over that same sequence. -/
theorem restack_upstack_iteration (restack : String → RestackRes)
    (trunk currentBranch : String) (upstacks : List String)
    (h : ∀ b ∈ upstacks, b ≠ trunk → (restack b).isErr = false) :
    (upstackRestackRun restack trunk currentBranch upstacks).invoked
        = upstacks.filter (fun b => b ≠ trunk) ∧
    (upstackRestackRun restack trunk currentBranch upstacks).logs
        = (upstacks.filter (fun b => b ≠ trunk)).filterMap
            (expectedLog restack currentBranch) := by
  unfold upstackRestackRun
  rw [runLoop_no_err restack trunk currentBranch upstacks ⟨[], [], []⟩ h]
  simp

/-- Sample restack outcome assignment: `A` and `B` are already restacked,
everything else restacks cleanly onto tip `t1`. -/
def sampleRestackAB : String → RestackRes := fun b =>
  if b = "A" then .alreadyRestacked
  else if b = "B" then .alreadyRestacked
  else .ok "t1"

theorem restack_upstack_iteration_witness :
    (∀ b ∈ (["main", "A", "B", "C"] : List String), b ≠ "main" →
      (sampleRestackAB b).isErr = false) ∧
    (upstackRestackRun sampleRestackAB "main" "A" ["main", "A", "B", "C"]).invoked
        = ["A", "B", "C"] ∧
    (upstackRestackRun sampleRestackAB "main" "A" ["main", "A", "B", "C"]).logs
        = [.noRestackNeeded "B", .restacked "C" "t1"] := by
  have h := restack_upstack_iteration sampleRestackAB "main" "A"
    ["main", "A", "B", "C"] (by decide)
  exact ⟨by decide, h.1.trans (by decide), h.2.trans (by decide)⟩

/-- C3: in `restack_upstack`, a per-branch restack error other than
`AlreadyRestacked` (a conflict or any other error) aborts the traversal
— branches after the failing one are never processed — and is surfaced to
the caller; the branches already restacked earlier keep their committed
store updates, and the original branch is not checked out on this path. -/
theorem restack_upstack_error_aborts (restack : String → RestackRes)
    (trunk currentBranch : String)
    (pre : List String) (bad : String) (post : List String)
    (hpre : ∀ b ∈ pre, b ≠ trunk → (restack b).isErr = false)
    (hbad1 : bad ≠ trunk) (hbad2 : (restack bad).isErr = true) :
    (upstackRestackRun restack trunk currentBranch (pre ++ bad :: post)).success
        = false ∧
    (upstackRestackRun restack trunk currentBranch (pre ++ bad :: post)).finalCheckout
        = none ∧
    (upstackRestackRun restack trunk currentBranch (pre ++ bad :: post)).invoked
        = pre.filter (fun b => b ≠ trunk) ++ [bad] ∧
    (upstackRestackRun restack trunk currentBranch (pre ++ bad :: post)).restackedBranches
        = (pre.filter (fun b => b ≠ trunk)).filter (fun b => (restack b).isOk) := by
  unfold upstackRestackRun
  rw [runLoop_err _ _ _ _ _ _ _ hpre hbad1 hbad2]
  simp

/-- Sample restack outcome assignment: `B` hits a rebase conflict,
everything else restacks cleanly onto tip `t2`. -/
def sampleRestackConflictB : String → RestackRes := fun b =>
  if b = "B" then .conflict else .ok "t2"

theorem restack_upstack_error_aborts_witness :
    (∀ b ∈ (["A"] : List String), b ≠ "main" →
      (sampleRestackConflictB b).isErr = false) ∧
    "B" ≠ "main" ∧ (sampleRestackConflictB "B").isErr = true ∧
    (upstackRestackRun sampleRestackConflictB "main" "A" ["A", "B", "C"]).success
        = false ∧
    (upstackRestackRun sampleRestackConflictB "main" "A" ["A", "B", "C"]).finalCheckout
        = none ∧
    (upstackRestackRun sampleRestackConflictB "main" "A" ["A", "B", "C"]).invoked
        = ["A", "B"] ∧
    (upstackRestackRun sampleRestackConflictB "main" "A" ["A", "B", "C"]).restackedBranches
        = ["A"] := by
  have h := restack_upstack_error_aborts sampleRestackConflictB "main" "A"
    ["A"] "B" ["C"] (by decide) (by decide) (by decide)
  exact ⟨by decide, by decide, by decide, h.1, h.2.1,
    h.2.2.1.trans (by decide), h.2.2.2.trans (by decide)⟩

/-- C7: when `restack_upstack` completes all branches without error, the
worktree is checked out on the branch that was the current branch when the
operation started (`repo.Checkout(ctx, currentBranch)` on the success
path). -/
theorem restack_upstack_checkout_original (restack : String → RestackRes)
    (trunk currentBranch : String) (upstacks : List String)
    (h : ∀ b ∈ upstacks, b ≠ trunk → (restack b).isErr = false) :
    (upstackRestackRun restack trunk currentBranch upstacks).success = true ∧
    (upstackRestackRun restack trunk currentBranch upstacks).finalCheckout
        = some currentBranch := by
  unfold upstackRestackRun
  rw [runLoop_no_err restack trunk currentBranch upstacks ⟨[], [], []⟩ h]
  simp

/-- Sample restack outcome assignment: every branch restacks cleanly. -/
def sampleRestackAllOk : String → RestackRes := fun _ => .ok "t3"

theorem restack_upstack_checkout_original_witness :
    (∀ b ∈ (["main", "X", "Y"] : List String), b ≠ "main" →
      (sampleRestackAllOk b).isErr = false) ∧
    (upstackRestackRun sampleRestackAllOk "main" "X" ["main", "X", "Y"]).success
        = true ∧
    (upstackRestackRun sampleRestackAllOk "main" "X" ["main", "X", "Y"]).finalCheckout
        = some "X" := by
  have h := restack_upstack_checkout_original sampleRestackAllOk "main" "X"
    ["main", "X", "Y"] (by decide)
  exact ⟨by decide, h.1, h.2⟩

end UpstackRestack

namespace DownstackEdit

/-- Branch names, as byte/character sequences (Go works on the bytes of
the edited file; we model them as character lists so that trimming is
structural). -/
abbrev Name := List Char

/-- One line of the edited document, as produced by `bufio.Scanner`
(newline already stripped). -/
abbrev Line := List Char

/-- Drop leading whitespace characters (the left half of
`bytes.TrimSpace`). -/
def trimLeft : List Char → List Char
  | [] => []
  | c :: cs => if c.isWhitespace then trimLeft cs else c :: cs

/-- `bytes.TrimSpace`: drop leading and trailing whitespace. Trailing
whitespace is removed by reversing, dropping leading whitespace, and
reversing back. -/
def trimSpace (l : List Char) : List Char :=
  (trimLeft (trimLeft l).reverse).reverse

/-- The parse error of the scanner loop in `downstackEditCmd.Run`: a line
names a branch that is not in the original downstack, or that was already
consumed (duplicated). -/
inductive EditErr where
  | invalidEdit (name : Name)
deriving DecidableEq, Repr

/-- The scanner loop of `downstackEditCmd.Run` (lines 93-109 of
downstack_edit.go): for each line, trim whitespace; skip the line if it is
empty or starts with `#`; otherwise the trimmed content must be a
not-yet-consumed member of `remaining` (the Go code keeps the pending
names in a map and deletes each name as it is matched) or the whole parse
fails; matched names are collected in order. -/
def parseLines : List Line → List Name → Except EditErr (List Name)
  | [], _ => .ok []
  | line :: rest, remaining =>
    if trimSpace line = [] ∨ (trimSpace line).head? = some '#' then
      parseLines rest remaining
    else if trimSpace line ∈ remaining then
      match parseLines rest (remaining.erase (trimSpace line)) with
      | .ok names => .ok (trimSpace line :: names)
      | .error e => .error e
    else
      .error (.invalidEdit (trimSpace line))

/-- The name contributed by a single line of the edited document: `none`
for blank-after-trimming and comment lines, otherwise the trimmed
content. -/
def parsedName (line : Line) : Option Name :=
  if trimSpace line = [] ∨ (trimSpace line).head? = some '#' then none
  else some (trimSpace line)

/-- Result of the whole `downstack edit` operation as observed from
outside. -/
inductive EditOutcome where
  | ok
  | errInvalidEdit (name : Name)
  | errEditorFailed
deriving DecidableEq, Repr

/-- Log messages emitted by `downstackEditCmd.Run`. -/
inductive EditLog where
  | nothingToEdit
  | aborted
deriving DecidableEq, Repr

/-- Observable effects and outcome of `downstackEditCmd.Run`: the
re-parent operations performed (`branchOntoCmd` invocations, in order,
each a pair of branch and new base), the final checkout, the temp-file
lifecycle, whether the editor was launched, and the log messages. -/
structure EditResult where
  outcome : EditOutcome
  ontoCalls : List (Name × Name)
  checkout : Option Name
  tempFileCreated : Bool
  tempFileDeleted : Bool
  editorLaunched : Bool
  logs : List EditLog
deriving DecidableEq, Repr

/-- The bottom-up re-parent loop of `downstackEditCmd.Run` (lines 122-132
of downstack_edit.go): starting from `base`, each branch is put onto the
current base and then becomes the new base. -/
def ontoLoop (base : Name) : List Name → List (Name × Name)
  | [] => []
  | b :: rest => (b, base) :: ontoLoop b rest

/-- `downstackEditCmd.Run` from the point where the downstack of the
requested branch has been listed and the `must` assertions have passed
(lines 65-137 of downstack_edit.go). Parameters stand for the external
collaborators: `downstacks` is the list returned by `svc.ListDownstack`,
`editorOk` is whether the editor subprocess exited successfully, and
`editedLines` is the content of the edited document it left behind.
Mirrors the source: a single-element downstack short-circuits before the
temp file is created; the temp file is created and the editor launched
otherwise; the edited document is parsed against the original names; an
empty result aborts with success; otherwise the list is reversed and
re-parented bottom-up starting at trunk and the new top (the first element
of the edited list, saved before the reversal) is checked out. No path of
the source removes the temp file, which `tempFileDeleted` records. -/
def downstackEditRun (trunk : Name) (downstacks : List Name)
    (editorOk : Bool) (editedLines : List Line) : EditResult :=
  if downstacks.length = 1 then
    { outcome := .ok, ontoCalls := [], checkout := none,
      tempFileCreated := false, tempFileDeleted := false,
      editorLaunched := false, logs := [.nothingToEdit] }
  else if editorOk = false then
    { outcome := .errEditorFailed, ontoCalls := [], checkout := none,
      tempFileCreated := true, tempFileDeleted := false,
      editorLaunched := true, logs := [] }
  else
    match parseLines editedLines downstacks.dedup with
    | .error (.invalidEdit n) =>
      { outcome := .errInvalidEdit n, ontoCalls := [], checkout := none,
        tempFileCreated := true, tempFileDeleted := false,
        editorLaunched := true, logs := [] }
    | .ok [] =>
      { outcome := .ok, ontoCalls := [], checkout := none,
        tempFileCreated := true, tempFileDeleted := false,
        editorLaunched := true, logs := [.aborted] }
    | .ok (t :: rest) =>
      { outcome := .ok,
        ontoCalls := ontoLoop trunk ((t :: rest).reverse),
        checkout := some t,
        tempFileCreated := true, tempFileDeleted := false,
        editorLaunched := true, logs := [] }

theorem ontoLoop_eq_zip (l : List Name) (base : Name) :
    ontoLoop base l = l.zip (base :: l) := by
  induction l generalizing base with
  | nil => rfl
  | cons b rest ih => simp [ontoLoop, List.zip_cons_cons, ih b]

theorem mem_ontoLoop_fst {l : List Name} {base : Name} {p : Name × Name}
    (hp : p ∈ ontoLoop base l) : p.1 ∈ l := by
  rw [ontoLoop_eq_zip] at hp
  exact (List.of_mem_zip hp).1

theorem trimLeft_eq_nil_of_whitespace {l : List Char}
    (h : ∀ c ∈ l, c.isWhitespace = true) : trimLeft l = [] := by
  induction l with
  | nil => rfl
  | cons c cs ih =>
    rw [trimLeft, if_pos (h c (List.mem_cons_self _ _))]
    exact ih fun x hx => h x (List.mem_cons_of_mem _ hx)

theorem trimSpace_eq_nil_of_whitespace {l : List Char}
    (h : ∀ c ∈ l, c.isWhitespace = true) : trimSpace l = [] := by
  rw [trimSpace, trimLeft_eq_nil_of_whitespace h]
  rfl

theorem trimLeft_append_singleton {c : Char} (hc : c.isWhitespace = false)
    (l : List Char) : ∃ l', trimLeft (l ++ [c]) = l' ++ [c] := by
  induction l with
  | nil =>
    refine ⟨[], ?_⟩
    simp [trimLeft, hc]
  | cons x xs ih =>
    by_cases hx : x.isWhitespace
    · rw [List.cons_append, trimLeft, if_pos hx]
      exact ih
    · exact ⟨x :: xs, by rw [List.cons_append, trimLeft, if_neg hx]⟩

theorem trimSpace_head_of_trimLeft {c : Char} {cs : List Char}
    {line : Line} (hc : c.isWhitespace = false)
    (h : trimLeft line = c :: cs) :
    (trimSpace line).head? = some c := by
  rw [trimSpace, h]
  obtain ⟨l', hl'⟩ := trimLeft_append_singleton hc cs.reverse
  have : (c :: cs).reverse = cs.reverse ++ [c] := by simp
  rw [this, hl']
  simp

theorem parseLines_ok : ∀ (lines : List Line) (remaining out : List Name),
    remaining.Nodup → parseLines lines remaining = .ok out →
    out = lines.filterMap parsedName ∧ out.Nodup ∧ ∀ n ∈ out, n ∈ remaining := by
  intro lines
  induction lines with
  | nil =>
    intro remaining out _ h
    rw [parseLines] at h
    injection h with h
    subst h
    simp
  | cons line rest ih =>
    intro remaining out hnd h
    rw [parseLines] at h
    by_cases hskip : trimSpace line = [] ∨ (trimSpace line).head? = some '#'
    · rw [if_pos hskip] at h
      obtain ⟨h1, h2, h3⟩ := ih remaining out hnd h
      refine ⟨?_, h2, h3⟩
      simp only [List.filterMap_cons, parsedName, if_pos hskip]
      exact h1
    · rw [if_neg hskip] at h
      by_cases hmem : trimSpace line ∈ remaining
      · rw [if_pos hmem] at h
        cases hrec : parseLines rest (remaining.erase (trimSpace line)) with
        | error e =>
          rw [hrec] at h
          simp at h
        | ok names =>
          rw [hrec] at h
          injection h with h
          subst h
          obtain ⟨h1, h2, h3⟩ := ih _ names (hnd.erase _) hrec
          refine ⟨?_, ?_, ?_⟩
          · simp only [List.filterMap_cons, parsedName, if_neg hskip]
            rw [h1]
          · refine List.Nodup.cons ?_ h2
            intro hmem2
            have hin := h3 _ hmem2
            rw [List.Nodup.mem_erase_iff hnd] at hin
            exact hin.1 rfl
          · intro n hn
            rcases List.mem_cons.mp hn with rfl | hn'
            · exact hmem
            · exact List.mem_of_mem_erase (h3 n hn')
      · rw [if_neg hmem] at h
        simp at h

/-- C2: after parsing, the edited list is reversed and re-parented
bottom-up: with `base` starting at trunk, each branch in the reversed list
is put onto the current base which then becomes the new base — so the
sequence of `onto` calls pairs each element of the reversed list with its
predecessor (trunk first); on success the worktree is checked out on the
first element of the edited list (the new top). -/
theorem downstack_edit_reparent_bottom_up (trunk : Name) (downstacks : List Name)
    (editedLines : List Line) (t : Name) (rest : List Name)
    (hlen : downstacks.length ≠ 1)
    (hparse : parseLines editedLines downstacks.dedup = .ok (t :: rest)) :
    (downstackEditRun trunk downstacks true editedLines).ontoCalls
        = ((t :: rest).reverse).zip (trunk :: (t :: rest).reverse) ∧
    (downstackEditRun trunk downstacks true editedLines).checkout = some t ∧
    (downstackEditRun trunk downstacks true editedLines).outcome = .ok := by
  refine ⟨?_, ?_, ?_⟩ <;> simp [downstackEditRun, hlen, hparse, ontoLoop_eq_zip]

/-- The branch names of scenario S4: a chain `main → A → B → C`. -/
def mainN : Name := ['m', 'a', 'i', 'n']

/-- Branch `A` of scenario S4. -/
def aN : Name := ['A']

/-- Branch `B` of scenario S4. -/
def bN : Name := ['B']

/-- Branch `C` of scenario S4. -/
def cN : Name := ['C']

theorem downstack_edit_reparent_bottom_up_witness :
    ([cN, bN, aN] : List Name).length ≠ 1 ∧
    parseLines [['C'], ['A'], ['B']] ([cN, bN, aN] : List Name).dedup
        = .ok [cN, aN, bN] ∧
    (downstackEditRun mainN [cN, bN, aN] true [['C'], ['A'], ['B']]).ontoCalls
        = [(bN, mainN), (aN, bN), (cN, aN)] ∧
    (downstackEditRun mainN [cN, bN, aN] true [['C'], ['A'], ['B']]).checkout
        = some cN ∧
    (downstackEditRun mainN [cN, bN, aN] true [['C'], ['A'], ['B']]).outcome
        = .ok := by
  have h := downstack_edit_reparent_bottom_up mainN [cN, bN, aN]
    [['C'], ['A'], ['B']] cN [aN, bN] (by decide) (by rfl)
  exact ⟨by decide, by rfl, h.1.trans (by decide), h.2.1, h.2.2⟩

/-- C4: the parser collects the non-comment, non-blank lines in order; if
the edited document names a branch outside the original chain, or names a
chain branch more than once, the operation fails with the invalid-edit
error and no re-parent is invoked (the store is untouched and nothing is
checked out); and a name omitted from the edited document is never the
subject of a re-parent, on any path. -/
theorem downstack_edit_invalid_edit (trunk : Name) (downstacks : List Name)
    (editedLines : List Line) :
    (((∃ n ∈ editedLines.filterMap parsedName, n ∉ downstacks) ∨
      (∃ n ∈ downstacks, (editedLines.filterMap parsedName).Duplicate n)) →
      downstacks.length ≠ 1 →
      (∃ n, (downstackEditRun trunk downstacks true editedLines).outcome
          = .errInvalidEdit n) ∧
      (downstackEditRun trunk downstacks true editedLines).ontoCalls = [] ∧
      (downstackEditRun trunk downstacks true editedLines).checkout = none) ∧
    (∀ n, n ∉ editedLines.filterMap parsedName →
      ∀ p ∈ (downstackEditRun trunk downstacks true editedLines).ontoCalls,
        p.1 ≠ n) := by
  constructor
  · intro hbad hlen
    cases hp : parseLines editedLines downstacks.dedup with
    | error e =>
      cases e with
      | invalidEdit n =>
        refine ⟨⟨n, ?_⟩, ?_, ?_⟩ <;> simp [downstackEditRun, hlen, hp]
    | ok out =>
      exfalso
      obtain ⟨h1, h2, h3⟩ :=
        parseLines_ok editedLines downstacks.dedup out (List.nodup_dedup _) hp
      rcases hbad with ⟨n, hn, hnot⟩ | ⟨n, _, hdup⟩
      · rw [← h1] at hn
        exact hnot (List.mem_dedup.mp (h3 n hn))
      · rw [← h1] at hdup
        exact hdup.not_nodup h2
  · intro n hn p hp2 heq
    by_cases hlen : downstacks.length = 1
    · simp [downstackEditRun, hlen] at hp2
    · cases hp : parseLines editedLines downstacks.dedup with
      | error e =>
        cases e with
        | invalidEdit m => simp [downstackEditRun, hlen, hp] at hp2
      | ok out =>
        cases out with
        | nil => simp [downstackEditRun, hlen, hp] at hp2
        | cons t rest =>
          have hcalls :
              (downstackEditRun trunk downstacks true editedLines).ontoCalls
                = ontoLoop trunk ((t :: rest).reverse) := by
            simp [downstackEditRun, hlen, hp]
          rw [hcalls] at hp2
          have hmem : p.1 ∈ t :: rest :=
            List.mem_reverse.mp (mem_ontoLoop_fst hp2)
          obtain ⟨h1, _, _⟩ :=
            parseLines_ok editedLines downstacks.dedup _ (List.nodup_dedup _) hp
          rw [h1] at hmem
          exact hn (heq ▸ hmem)

theorem downstack_edit_invalid_edit_witness :
    ((∃ n ∈ ([['X']] : List Line).filterMap parsedName,
        n ∉ ([aN, bN] : List Name)) ∨
      (∃ n ∈ ([aN, bN] : List Name),
        (([['X']] : List Line).filterMap parsedName).Duplicate n)) ∧
    ([aN, bN] : List Name).length ≠ 1 ∧
    (∃ n, (downstackEditRun mainN [aN, bN] true [['X']]).outcome
        = .errInvalidEdit n) ∧
    (downstackEditRun mainN [aN, bN] true [['X']]).ontoCalls = [] ∧
    (downstackEditRun mainN [aN, bN] true [['X']]).checkout = none := by
  have h := (downstack_edit_invalid_edit mainN [aN, bN] [['X']]).1
    (Or.inl (by decide)) (by decide)
  exact ⟨Or.inl (by decide), by decide, h.1, h.2.1, h.2.2⟩

/-- C6: if parsing the edited document yields an empty list of names (the
user deleted every line), the operation logs that the edit was aborted and
returns success, invoking no re-parent, leaving the store untouched, and
checking out nothing. -/
theorem downstack_edit_empty_aborted (trunk : Name) (downstacks : List Name)
    (editedLines : List Line) (hlen : downstacks.length ≠ 1)
    (hparse : parseLines editedLines downstacks.dedup = .ok []) :
    (downstackEditRun trunk downstacks true editedLines).outcome = .ok ∧
    (downstackEditRun trunk downstacks true editedLines).ontoCalls = [] ∧
    (downstackEditRun trunk downstacks true editedLines).checkout = none ∧
    (downstackEditRun trunk downstacks true editedLines).logs = [.aborted] := by
  refine ⟨?_, ?_, ?_, ?_⟩ <;> simp [downstackEditRun, hlen, hparse]

theorem downstack_edit_empty_aborted_witness :
    ([aN, bN] : List Name).length ≠ 1 ∧
    parseLines [] ([aN, bN] : List Name).dedup = .ok [] ∧
    (downstackEditRun mainN [aN, bN] true []).outcome = .ok ∧
    (downstackEditRun mainN [aN, bN] true []).ontoCalls = [] ∧
    (downstackEditRun mainN [aN, bN] true []).checkout = none ∧
    (downstackEditRun mainN [aN, bN] true []).logs = [.aborted] := by
  have h := downstack_edit_empty_aborted mainN [aN, bN] [] (by decide) (by rfl)
  exact ⟨by decide, by rfl, h.1, h.2.1, h.2.2.1, h.2.2.2⟩

/-- C8: when the downstack of the chosen branch has exactly one element
(nothing between it and trunk), the operation reports there is nothing to
edit and returns success without creating the temp file, launching the
editor, re-parenting anything or checking out a branch. -/
theorem downstack_edit_nothing_to_edit (trunk : Name) (downstacks : List Name)
    (editorOk : Bool) (editedLines : List Line)
    (hlen : downstacks.length = 1) :
    (downstackEditRun trunk downstacks editorOk editedLines).outcome = .ok ∧
    (downstackEditRun trunk downstacks editorOk editedLines).editorLaunched = false ∧
    (downstackEditRun trunk downstacks editorOk editedLines).tempFileCreated = false ∧
    (downstackEditRun trunk downstacks editorOk editedLines).ontoCalls = [] ∧
    (downstackEditRun trunk downstacks editorOk editedLines).checkout = none ∧
    (downstackEditRun trunk downstacks editorOk editedLines).logs
        = [.nothingToEdit] := by
  refine ⟨?_, ?_, ?_, ?_, ?_, ?_⟩ <;> simp [downstackEditRun, hlen]

theorem downstack_edit_nothing_to_edit_witness :
    ([aN] : List Name).length = 1 ∧
    (downstackEditRun mainN [aN] true [['B']]).outcome = .ok ∧
    (downstackEditRun mainN [aN] true [['B']]).editorLaunched = false ∧
    (downstackEditRun mainN [aN] true [['B']]).tempFileCreated = false ∧
    (downstackEditRun mainN [aN] true [['B']]).ontoCalls = [] ∧
    (downstackEditRun mainN [aN] true [['B']]).checkout = none ∧
    (downstackEditRun mainN [aN] true [['B']]).logs = [.nothingToEdit] := by
  have h := downstack_edit_nothing_to_edit mainN [aN] true [['B']] (by decide)
  exact ⟨by decide, h.1, h.2.1, h.2.2.1, h.2.2.2.1, h.2.2.2.2.1, h.2.2.2.2.2⟩

/-- C5 fails on the code: downstack_edit.go never removes the temporary
file made by `createEditFile` — there is no `os.Remove` (or equivalent) on
any path of `downstackEditCmd.Run` or `createEditFile`, which only closes
the file. Evaluating the operation on the success path (the S4 edit), the
editor-failure path, the invalid-edit path and the abort path: the temp
file was created and is still present at exit on every one of them. -/
theorem downstack_edit_temp_file_not_deleted :
    ((downstackEditRun mainN [cN, bN, aN] true [['C'], ['A'], ['B']]).tempFileCreated
        = true ∧
     (downstackEditRun mainN [cN, bN, aN] true [['C'], ['A'], ['B']]).tempFileDeleted
        = false) ∧
    ((downstackEditRun mainN [cN, bN, aN] false []).tempFileCreated = true ∧
     (downstackEditRun mainN [cN, bN, aN] false []).tempFileDeleted = false) ∧
    ((downstackEditRun mainN [cN, bN, aN] true [['X']]).tempFileCreated = true ∧
     (downstackEditRun mainN [cN, bN, aN] true [['X']]).tempFileDeleted = false) ∧
    ((downstackEditRun mainN [cN, bN, aN] true []).tempFileCreated = true ∧
     (downstackEditRun mainN [cN, bN, aN] true []).tempFileDeleted = false) := by
  refine ⟨⟨?_, ?_⟩, ⟨?_, ?_⟩, ⟨?_, ?_⟩, ⟨?_, ?_⟩⟩ <;> rfl

/-- C10: the parser trims leading and trailing whitespace from each line
before classifying it: a line consisting only of whitespace is ignored
like a blank line; a line whose first non-whitespace character is `#` is
ignored as a comment even when `#` is preceded by whitespace; a
non-skipped line contributes exactly its trimmed content as the candidate
name; and that trimmed name is what is matched against the chain — when it
is not among the pending names the parse fails naming the trimmed
content. -/
theorem downstack_edit_parse_trims (line : Line) :
    ((∀ c ∈ line, c.isWhitespace = true) →
      parsedName line = none ∧
      ∀ rest remaining, parseLines (line :: rest) remaining
          = parseLines rest remaining) ∧
    ((∃ cs, trimLeft line = '#' :: cs) →
      parsedName line = none ∧
      ∀ rest remaining, parseLines (line :: rest) remaining
          = parseLines rest remaining) ∧
    (∀ n, parsedName line = some n → n = trimSpace line) ∧
    (∀ rest remaining, trimSpace line ∉ remaining →
      parsedName line = some (trimSpace line) →
      parseLines (line :: rest) remaining
          = .error (.invalidEdit (trimSpace line))) := by
  refine ⟨?_, ?_, ?_, ?_⟩
  · intro hws
    have hnil : trimSpace line = [] := trimSpace_eq_nil_of_whitespace hws
    constructor
    · rw [parsedName, if_pos (Or.inl hnil)]
    · intro rest remaining
      rw [parseLines, if_pos (Or.inl hnil)]
  · rintro ⟨cs, hcs⟩
    have hhead : (trimSpace line).head? = some '#' :=
      trimSpace_head_of_trimLeft (by decide) hcs
    constructor
    · rw [parsedName, if_pos (Or.inr hhead)]
    · intro rest remaining
      rw [parseLines, if_pos (Or.inr hhead)]
  · intro n h
    rw [parsedName] at h
    by_cases hskip : trimSpace line = [] ∨ (trimSpace line).head? = some '#'
    · rw [if_pos hskip] at h
      cases h
    · rw [if_neg hskip] at h
      injection h with h
      exact h.symm
  · intro rest remaining hmem h
    rw [parsedName] at h
    by_cases hskip : trimSpace line = [] ∨ (trimSpace line).head? = some '#'
    · rw [if_pos hskip] at h
      cases h
    · rw [parseLines, if_neg hskip, if_neg hmem]

theorem downstack_edit_parse_trims_witness :
    (∀ c ∈ ([' ', '\t'] : Line), c.isWhitespace = true) ∧
    parsedName [' ', '\t'] = none ∧
    (∃ cs, trimLeft ([' ', '#', 'x'] : Line) = '#' :: cs) ∧
    parsedName [' ', '#', 'x'] = none ∧
    parsedName ([' ', 'a', ' '] : Line) = some ['a'] ∧
    ['a'] = trimSpace ([' ', 'a', ' '] : Line) ∧
    parseLines ([[' ', 'a', ' ']] : List Line) [bN]
        = .error (.invalidEdit ['a']) := by
  refine ⟨by decide,
    ((downstack_edit_parse_trims [' ', '\t']).1 (by decide)).1,
    ⟨['x'], by decide⟩,
    ((downstack_edit_parse_trims [' ', '#', 'x']).2.1 ⟨['x'], by decide⟩).1,
    by rfl,
    (downstack_edit_parse_trims [' ', 'a', ' ']).2.2.1 ['a'] (by rfl),
    ?_⟩
  have h := (downstack_edit_parse_trims [' ', 'a', ' ']).2.2.2 [] [bN]
    (by decide) (by rfl)
  have ht : trimSpace ([' ', 'a', ' '] : Line) = ['a'] := by rfl
  rw [ht] at h
  exact h

end DownstackEdit

namespace StackService

/-- A branch-graph store as the stack service sees it: the trunk name and,
for each tracked branch, its recorded base branch name. -/
structure Store where
  trunk : String
  branches : List (String × String)
deriving DecidableEq, Repr

/-- The recorded base of `b`, when `b` is tracked. -/
def lookupBase (branches : List (String × String)) (b : String) : Option String :=
  (branches.find? (fun p => p.1 == b)).map (fun p => p.2)

/-- Stack-service errors relevant here. -/
inductive GsErr where
  | unknownBranch
deriving DecidableEq, Repr

/-- Modelled from the spec: the stack service (`internal/gs`,
`Service.ListDownstack`) is not among the provided source files — only its
caller in downstack_edit.go is. Per spec section 4.C, the downstack is the
chain `[b, parent, grandparent, ...]` obtained by following recorded
bases, terminating at but not including the trunk. Fuel bounds the walk by
the store size. -/
def downstackChain (st : Store) : Nat → String → List String
  | 0, _ => []
  | fuel + 1, b =>
    b :: (match lookupBase st.branches b with
          | none => []
          | some p => if p = st.trunk then [] else downstackChain st fuel p)

/-- Modelled from the spec: `list_downstack(b)` fails with `UnknownBranch`
when `b` is not tracked, and otherwise returns the ancestor chain starting
at `b`. -/
def listDownstack (st : Store) (b : String) : Except GsErr (List String) :=
  match lookupBase st.branches b with
  | none => .error .unknownBranch
  | some _ => .ok (downstackChain st (st.branches.length + 1) b)

/-- C9: whenever `ListDownstack` succeeds, the returned list is non-empty
and its first element is the requested branch, so the two assertions
guarding the downstack in `downstackEditCmd.Run` (`must.NotBeEmptyf` and
`must.BeEqualf(downstacks[0], cmd.Name)`) never fire. -/
theorem list_downstack_head (st : Store) (b : String) (l : List String)
    (h : listDownstack st b = .ok l) : l ≠ [] ∧ l.head? = some b := by
  unfold listDownstack at h
  cases hl : lookupBase st.branches b with
  | none =>
    rw [hl] at h
    simp at h
  | some p =>
    rw [hl] at h
    injection h with h
    subst h
    rw [downstackChain]
    exact ⟨by simp, rfl⟩

theorem list_downstack_head_witness :
    listDownstack ⟨"main", [("A", "main"), ("B", "A")]⟩ "B" = .ok ["B", "A"] ∧
    (["B", "A"] : List String) ≠ [] ∧
    (["B", "A"] : List String).head? = some "B" := by
  have h := list_downstack_head ⟨"main", [("A", "main"), ("B", "A")]⟩ "B"
    ["B", "A"] (by rfl)
  exact ⟨by rfl, h⟩

end StackService

end GitSpice
